import Mathlib

/-!
Verification of the `Spline::PiecewisePolynomial` core of KrisLibrary
(src/spline/PiecewisePolynomial.h), shallowly embedded in Lean 4.

Doubles are modelled by `ℚ` (the spec treats polynomial arithmetic as exact),
`Polynomial<double>` by a coefficient list (`Poly`), and the class by a
structure holding the three parallel sequences `segments`, `timeShift`,
`times` (header lines 100-102).  Fallible operations return
`Except TrajError _` mirroring the spec's error taxonomy.

Only the header is present in the sources; the bodies of `FindSegment`,
`Evaluate`, `Derivative`, `Differentiate`, `Append`, `Concat`, `TimeShift`,
`ZeroTimeShift`, `Split`, `TrimFront`, `TrimBack`, `Select`,
`MaxDiscontinuity` and the compound-assignment operators live in the missing
PiecewisePolynomial.cpp, so those definitions are modelled from the spec
(sections 4.2-4.11, 6) and are marked `Modelled from the spec:` below.
The inline members `Start`, `End`, `StartTime`, `EndTime` (header lines
39-42) are translated from the source directly.
-/

namespace Spline

/-- A polynomial over ℚ as its coefficient list, constant term first:
`[a0, a1, a2]` denotes `a0 + a1 x + a2 x^2`.  Embeds `Polynomial<double>`. -/
abbrev Poly := List ℚ

/-- Horner evaluation of a coefficient list. -/
def polyEval (p : Poly) (x : ℚ) : ℚ := p.foldr (fun a acc => a + x * acc) 0

/-- Formal derivative of a coefficient list: drop the constant term and
multiply coefficient `i+1` by `i+1`. -/
def polyDeriv : Poly → Poly
  | [] => []
  | _ :: rest =>
    List.zipWith (fun (i : ℕ) (a : ℚ) => ((i : ℚ) + 1) * a) (List.range rest.length) rest

/-- n-th formal derivative. -/
def polyDerivN : Nat → Poly → Poly
  | 0, p => p
  | n + 1, p => polyDerivN n (polyDeriv p)

/-- Coefficientwise sum of two polynomials. -/
def polyAdd : Poly → Poly → Poly
  | [], q => q
  | p, [] => p
  | a :: p, b :: q => (a + b) :: polyAdd p q

/-- Scalar multiple of a polynomial. -/
def polyScale (c : ℚ) (p : Poly) : Poly := p.map (fun a => c * a)

/-- Difference of two polynomials. -/
def polySub (p q : Poly) : Poly := polyAdd p (polyScale (-1) q)

/-- Product of two polynomials. -/
def polyMul : Poly → Poly → Poly
  | [], _ => []
  | a :: p, q => polyAdd (polyScale a q) ((0 : ℚ) :: polyMul p q)

/-- Argument shift: `polyShiftArg c p` is the polynomial `x ↦ p (x - c)`. -/
def polyShiftArg (c : ℚ) : Poly → Poly
  | [] => []
  | a :: rest => polyAdd [a] (polyMul [-c, 1] (polyShiftArg c rest))

/-- Error taxonomy of spec section 7. -/
inductive TrajError where
  | emptyTrajectory
  | outOfRange
  | invalidDuration
  | timeGap
  | emptyResult
  | malformedInput
deriving Repr, DecidableEq

/-- The class `Spline::PiecewisePolynomial` (header lines 22-103): parallel
sequences `segments`, `timeShift`, `times`. -/
structure PiecewisePolynomial where
  segments : List Poly
  timeShift : List ℚ
  times : List ℚ
deriving Repr, DecidableEq

namespace PiecewisePolynomial

/-- `StartTime()` (header line 41): `times.front()`; total version with
default 0 standing for the undefined empty case. -/
def startTime (f : PiecewisePolynomial) : ℚ := f.times.headD 0

/-- `EndTime()` (header line 42): `times.back()`. -/
def endTime (f : PiecewisePolynomial) : ℚ := f.times.getLastD 0

/-- `StartTime()` with the emptiness precondition made explicit: `none`
exactly when the `times.front()` access would be out of bounds. -/
def startTimeOpt (f : PiecewisePolynomial) : Option ℚ := f.times.head?

/-- `EndTime()` with the emptiness precondition made explicit. -/
def endTimeOpt (f : PiecewisePolynomial) : Option ℚ := f.times.getLast?

/-- `Start()` (header line 39):
`segments.front()(times.front()-timeShift.front())`, with each `front()`
access made explicit: `none` exactly when some access would be out of
bounds. -/
def startOpt (f : PiecewisePolynomial) : Option ℚ :=
  match f.segments.head?, f.times.head?, f.timeShift.head? with
  | some s, some t, some c => some (polyEval s (t - c))
  | _, _, _ => none

/-- `End()` (header line 40):
`segments.back()(times.back()-timeShift.back())`. -/
def endOpt (f : PiecewisePolynomial) : Option ℚ :=
  match f.segments.getLast?, f.times.getLast?, f.timeShift.getLast? with
  | some s, some t, some c => some (polyEval s (t - c))
  | _, _, _ => none

/-- Modelled from the spec: the body of `FindSegment` is in the missing
PiecewisePolynomial.cpp.  Spec 4.2: greatest i with `times[i] <= t`,
clamped to `[0, n-1]`; t below `times[0]` maps to 0, t at or above
`times[n]` maps to n-1.  The greatest such index is one less than the
number of entries of `times` that are `<= t`. -/
def findSegment (f : PiecewisePolynomial) (t : ℚ) : Nat :=
  let c := (f.times.filter (fun u => decide (u ≤ t))).length
  if c = 0 then 0 else min (c - 1) (f.segments.length - 1)

/-- Modelled from the spec: the body of `Evaluate` is in the missing
PiecewisePolynomial.cpp.  Spec 4.3: `i = FindSegment(t)`;
result `= segments[i].evaluate(t - timeShift[i])`. -/
def evaluate (f : PiecewisePolynomial) (t : ℚ) : ℚ :=
  polyEval (f.segments.getD (f.findSegment t) [])
    (t - f.timeShift.getD (f.findSegment t) 0)

/-- Modelled from the spec: the body of `Derivative` is in the missing
PiecewisePolynomial.cpp.  Spec 4.3: the n-th derivative of segment
`FindSegment(t)` evaluated at `t - timeShift[i]`, no chain-rule rescaling. -/
def derivative (f : PiecewisePolynomial) (t : ℚ) (n : Nat) : ℚ :=
  polyEval (polyDerivN n (f.segments.getD (f.findSegment t) []))
    (t - f.timeShift.getD (f.findSegment t) 0)

/-- Modelled from the spec: the body of `Differentiate` is in the missing
PiecewisePolynomial.cpp.  Spec 4.4: each segment replaced by its n-th
derivative, same `times` and `timeShift`. -/
def differentiate (f : PiecewisePolynomial) (n : Nat) : PiecewisePolynomial :=
  ⟨f.segments.map (polyDerivN n), f.timeShift, f.times⟩

/-- Modelled from the spec: the body of `TimeShift` is in the missing
PiecewisePolynomial.cpp.  Spec 4.7: add dt to every entry of `times` and of
`timeShift` (the safe implementation preserving local arguments). -/
def timeShiftBy (f : PiecewisePolynomial) (dt : ℚ) : PiecewisePolynomial :=
  ⟨f.segments, f.timeShift.map (fun c => c + dt), f.times.map (fun u => u + dt)⟩

/-- Modelled from the spec: the body of `ZeroTimeShift` is in the missing
PiecewisePolynomial.cpp.  Spec 4.7: re-express each segment so that its
`timeShift` becomes 0, composing the polynomial with an argument shift. -/
def zeroTimeShift (f : PiecewisePolynomial) : PiecewisePolynomial :=
  ⟨List.zipWith (fun p c => polyShiftArg c p) f.segments f.timeShift,
   f.timeShift.map (fun _ => (0 : ℚ)), f.times⟩

/-- Modelled from the spec: the body of `Append` is in the missing
PiecewisePolynomial.cpp.  Spec 4.5: new breakpoint `t` (absolute) or
`EndTime() + t` (relative); new segment's timeShift is the previous end
time; fails unless the new interval is strictly positive. -/
def append (f : PiecewisePolynomial) (p : Poly) (t : ℚ) (relative : Bool) :
    Except TrajError PiecewisePolynomial :=
  if f.segments.isEmpty then .error .emptyTrajectory
  else
    let tEnd := f.endTime
    let tNew := if relative then tEnd + t else t
    if tNew ≤ tEnd then .error .invalidDuration
    else .ok ⟨f.segments ++ [p], f.timeShift ++ [tEnd], f.times ++ [tNew]⟩

/-- Modelled from the spec: the body of `Concat` is in the missing
PiecewisePolynomial.cpp.  Spec 4.6: if relative, shift `g`'s breakpoints and
timeShifts forward by `EndTime()`; then require the shifted start time to
equal `EndTime()` and append every segment, fusing the shared breakpoint. -/
def concat (f g : PiecewisePolynomial) (relative : Bool) :
    Except TrajError PiecewisePolynomial :=
  let g2 := if relative then g.timeShiftBy f.endTime else g
  if g2.segments.isEmpty then .ok f
  else if f.segments.isEmpty then .ok g2
  else if g2.startTime = f.endTime then
    .ok ⟨f.segments ++ g2.segments, f.timeShift ++ g2.timeShift,
         f.times ++ g2.times.tail⟩
  else .error .timeGap

/-- Modelled from the spec: the body of `Split` is in the missing
PiecewisePolynomial.cpp.  Spec 4.8: fails with OutOfRange outside
`[StartTime, EndTime]`; at an existing breakpoint the boundary segment goes
wholly to one side; otherwise the segment containing t is duplicated into
both halves with only the breakpoint clipped to t. -/
def split (f : PiecewisePolynomial) (t : ℚ) :
    Except TrajError (PiecewisePolynomial × PiecewisePolynomial) :=
  if f.segments.isEmpty then .error .emptyTrajectory
  else if t < f.startTime ∨ f.endTime < t then .error .outOfRange
  else
    let i := f.findSegment t
    if t = f.times.getD i 0 then
      .ok (⟨f.segments.take i, f.timeShift.take i, f.times.take (i + 1)⟩,
           ⟨f.segments.drop i, f.timeShift.drop i, f.times.drop i⟩)
    else if t = f.endTime then
      .ok (f, ⟨[], [], [t]⟩)
    else
      .ok (⟨f.segments.take (i + 1), f.timeShift.take (i + 1),
            f.times.take (i + 1) ++ [t]⟩,
           ⟨f.segments.drop i, f.timeShift.drop i, t :: f.times.drop (i + 1)⟩)

/-- Modelled from the spec: the body of `TrimFront` is in the missing
PiecewisePolynomial.cpp.  Spec 4.9: drop all segments entirely before
tstart; the new first breakpoint becomes tstart; fails with EmptyResult
unless `tstart < EndTime()`. -/
def trimFront (f : PiecewisePolynomial) (tstart : ℚ) :
    Except TrajError PiecewisePolynomial :=
  if f.segments.isEmpty then .error .emptyTrajectory
  else if f.endTime ≤ tstart then .error .emptyResult
  else
    let i := f.findSegment tstart
    .ok ⟨f.segments.drop i, f.timeShift.drop i, tstart :: f.times.drop (i + 1)⟩

/-- Modelled from the spec: the body of `TrimBack` is in the missing
PiecewisePolynomial.cpp.  Spec 4.9: drop all segments entirely after tend;
the new last breakpoint becomes tend; fails with EmptyResult unless
`tend > StartTime()`. -/
def trimBack (f : PiecewisePolynomial) (tend : ℚ) :
    Except TrajError PiecewisePolynomial :=
  if f.segments.isEmpty then .error .emptyTrajectory
  else if tend ≤ f.startTime then .error .emptyResult
  else
    let i := f.findSegment tend
    if tend = f.times.getD i 0 then
      .ok ⟨f.segments.take i, f.timeShift.take i, f.times.take (i + 1)⟩
    else
      .ok ⟨f.segments.take (i + 1), f.timeShift.take (i + 1),
           f.times.take (i + 1) ++ [tend]⟩

/-- Modelled from the spec: the body of `Select` is in the missing
PiecewisePolynomial.cpp.  Spec 4.10: equivalent to `TrimFront(a)` then
`TrimBack(b)` on a copy, the original left unmodified (automatic under the
value semantics of the embedding). -/
def select (f : PiecewisePolynomial) (a b : ℚ) :
    Except TrajError PiecewisePolynomial :=
  match f.trimFront a with
  | .error e => .error e
  | .ok g => g.trimBack b

/-- Discontinuity magnitude of the d-th derivative at internal breakpoint
`times[i]`: `|right - left|` with the one-sided values of spec 4.11. -/
def discAt (f : PiecewisePolynomial) (d : Nat) (i : Nat) : ℚ :=
  let ti := f.times.getD i 0
  |polyEval (polyDerivN d (f.segments.getD i [])) (ti - f.timeShift.getD i 0) -
    polyEval (polyDerivN d (f.segments.getD (i - 1) [])) (ti - f.timeShift.getD (i - 1) 0)|

/-- Running maximum of `discAt` over internal breakpoints `1 .. k+1`,
keeping the first occurrence on ties (a later candidate replaces the best
only when strictly larger). -/
def bestDisc (f : PiecewisePolynomial) (d : Nat) : Nat → ℚ × ℚ
  | 0 => (f.times.getD 1 0, f.discAt d 1)
  | k + 1 =>
    let prev := bestDisc f d k
    if prev.2 < f.discAt d (k + 2) then (f.times.getD (k + 2) 0, f.discAt d (k + 2))
    else prev

/-- Modelled from the spec: the body of `MaxDiscontinuity` is in the missing
PiecewisePolynomial.cpp.  Spec 4.11: the `(time, magnitude)` pair of maximum
discontinuity magnitude over internal breakpoints, ties broken by lowest
index; `(0, 0)` is the documented deterministic convention for fewer than
two segments. -/
def maxDiscontinuity (f : PiecewisePolynomial) (d : Nat) : ℚ × ℚ :=
  if f.segments.length < 2 then (0, 0)
  else f.bestDisc d (f.segments.length - 2)

/-- Modelled from the spec: the bodies of the compound-assignment operators
are in the missing PiecewisePolynomial.cpp.  Spec 6: `+= val` adds the
scalar to every segment's polynomial. -/
def addScalar (f : PiecewisePolynomial) (c : ℚ) : PiecewisePolynomial :=
  ⟨f.segments.map (fun p => polyAdd p [c]), f.timeShift, f.times⟩

/-- Modelled from the spec: `-= val` on every segment (missing .cpp). -/
def subScalar (f : PiecewisePolynomial) (c : ℚ) : PiecewisePolynomial :=
  ⟨f.segments.map (fun p => polySub p [c]), f.timeShift, f.times⟩

/-- Modelled from the spec: `*= val` on every segment (missing .cpp). -/
def mulScalar (f : PiecewisePolynomial) (c : ℚ) : PiecewisePolynomial :=
  ⟨f.segments.map (polyScale c), f.timeShift, f.times⟩

/-- Modelled from the spec: `/= val` on every segment (missing .cpp). -/
def divScalar (f : PiecewisePolynomial) (c : ℚ) : PiecewisePolynomial :=
  ⟨f.segments.map (polyScale c⁻¹), f.timeShift, f.times⟩

/-- Modelled from the spec: `+= Polynomial` on every segment (missing .cpp). -/
def addPolyOp (f : PiecewisePolynomial) (b : Poly) : PiecewisePolynomial :=
  ⟨f.segments.map (fun p => polyAdd p b), f.timeShift, f.times⟩

/-- Modelled from the spec: `-= Polynomial` on every segment (missing .cpp). -/
def subPolyOp (f : PiecewisePolynomial) (b : Poly) : PiecewisePolynomial :=
  ⟨f.segments.map (fun p => polySub p b), f.timeShift, f.times⟩

/-- Modelled from the spec: `*= Polynomial` on every segment (missing .cpp). -/
def mulPolyOp (f : PiecewisePolynomial) (b : Poly) : PiecewisePolynomial :=
  ⟨f.segments.map (fun p => polyMul p b), f.timeShift, f.times⟩

/-- The structural invariant of spec section 3:
`len(segments) + 1 == len(times) == len(timeShift) + 1` and strictly
increasing breakpoints. -/
def inv (f : PiecewisePolynomial) : Prop :=
  f.times.length = f.segments.length + 1 ∧
  f.timeShift.length = f.segments.length ∧
  f.times.Pairwise (fun a b => a < b)

instance (f : PiecewisePolynomial) : Decidable f.inv := by
  unfold inv
  infer_instance

end PiecewisePolynomial

/-- Modelled from the spec: the single-segment constructor
`PiecewisePolynomial(p, a, b)` lives in the missing .cpp.  Spec 4.1: one
segment on `[a, b)` with timeShift a; breakpoints must be strictly
increasing. -/
def ofSegment (p : Poly) (a b : ℚ) : Except TrajError PiecewisePolynomial :=
  if a < b then .ok ⟨[p], [a], [a, b]⟩ else .error .malformedInput

/-- Modelled from the spec: the explicit-shifts constructor lives in the
missing .cpp.  Spec 4.1: use the three sequences verbatim after validating
the length and monotonicity preconditions. -/
def ofSegments (segs : List Poly) (ts : List ℚ) (shifts : List ℚ) :
    Except TrajError PiecewisePolynomial :=
  if ts.length = segs.length + 1 ∧ shifts.length = segs.length ∧
      ts.Pairwise (fun a b => a < b) then
    .ok ⟨segs, shifts, ts⟩
  else .error .malformedInput

/-- Breakpoints of a duration list by running prefix sums from a start. -/
def prefixSums (a : ℚ) : List ℚ → List ℚ
  | [] => [a]
  | d :: rest => a :: prefixSums (a + d) rest

/-- Modelled from the spec: the relative constructor lives in the missing
.cpp.  Spec 4.1: `ts` holds each segment's duration; absolute breakpoints
are the running prefix sums from 0 and each timeShift makes the local
domain start at 0 (the shift is the segment's own start breakpoint). -/
def ofSegmentsRelative (segs : List Poly) (durs : List ℚ) :
    Except TrajError PiecewisePolynomial :=
  if durs.length = segs.length ∧ durs.all (fun d => decide (0 < d)) then
    .ok ⟨segs, (prefixSums 0 durs).take segs.length, prefixSums 0 durs⟩
  else .error .malformedInput

/-- `Split(t, front, back)` immediately followed by
`front.Concat(back, relative = false)`, the round trip of the spec's
Split/Concat inverse law; `none` when either step fails. -/
def splitConcat (f : PiecewisePolynomial) (t : ℚ) : Option PiecewisePolynomial :=
  match f.split t with
  | .ok (fr, bk) =>
    match fr.concat bk false with
    | .ok g => some g
    | .error _ => none
  | .error _ => none

/-- Concrete trajectory: the single segment `x ↦ x` on `[0, 2]`. -/
def ppSeg : PiecewisePolynomial := ⟨[[0, 1]], [0], [0, 2]⟩

/-- Concrete trajectory: the single segment `x ↦ 2 x` on `[0, 5]` with
timeShift 0 (the curve `Linear(0, 10, 0, 5)` of spec section 8). -/
def ppLin : PiecewisePolynomial := ⟨[[0, 2]], [0], [0, 5]⟩

/-- Concrete trajectory: constant 1 on `[0, 1]` then constant 2 on `[1, 2]`
(spec section 8's two-segment discontinuity scenario), timeShifts 0 and 1. -/
def ppTwo : PiecewisePolynomial := ⟨[[1], [2]], [0, 1], [0, 1, 2]⟩

/-- Concrete trajectory with three segments on `[0, 1, 2, 3]`. -/
def ppThree : PiecewisePolynomial :=
  ⟨[[0, 1], [1, 1], [3, -1]], [0, 1, 2], [0, 1, 2, 3]⟩

end Spline

namespace Spline

theorem getD_eq_getElem {α : Type} (l : List α) (d : α) :
    ∀ i, ∀ h : i < l.length, l.getD i d = l[i] := by
  induction l with
  | nil => intro i h; simp at h
  | cons a rest ih =>
    intro i h
    cases i with
    | zero => rfl
    | succ j =>
      have hj : j < rest.length := by simp only [List.length_cons] at h; omega
      simpa [List.getElem_cons_succ] using ih j hj

theorem getD_irrel {α : Type} (l : List α) (i : Nat) (h : i < l.length) (d d2 : α) :
    l.getD i d = l.getD i d2 := by
  rw [getD_eq_getElem l d i h, getD_eq_getElem l d2 i h]

theorem getD_mem {α : Type} (l : List α) (i : Nat) (h : i < l.length) (d : α) :
    l.getD i d ∈ l := by
  rw [getD_eq_getElem l d i h]
  exact List.getElem_mem h

theorem mem_exists_getD {α : Type} (l : List α) (x : α) (hx : x ∈ l) (d : α) :
    ∃ i, i < l.length ∧ l.getD i d = x := by
  obtain ⟨i, hi, he⟩ := List.mem_iff_getElem.mp hx
  exact ⟨i, hi, by rw [getD_eq_getElem l d i hi, he]⟩

theorem getD_map_eq {α β : Type} (g : α → β) (l : List α) (d : α) (d2 : β) :
    ∀ i, i < l.length → (l.map g).getD i d2 = g (l.getD i d) := by
  induction l with
  | nil => intro i h; simp at h
  | cons a rest ih =>
    intro i h
    cases i with
    | zero => rfl
    | succ j =>
      have hj : j < rest.length := by simp only [List.length_cons] at h; omega
      exact ih j hj

theorem getD_take_eq {α : Type} (l : List α) (d : α) :
    ∀ k i, i < k → (l.take k).getD i d = l.getD i d := by
  induction l with
  | nil => intro k i _; simp
  | cons a rest ih =>
    intro k i hik
    cases k with
    | zero => omega
    | succ m =>
      cases i with
      | zero => rfl
      | succ j => exact ih m j (by omega)

theorem getD_drop_eq {α : Type} (l : List α) (d : α) :
    ∀ k i, (l.drop k).getD i d = l.getD (k + i) d := by
  induction l with
  | nil => intro k i; simp
  | cons a rest ih =>
    intro k i
    cases k with
    | zero => simp
    | succ m =>
      have : m + 1 + i = (m + i) + 1 := by omega
      rw [this]
      exact ih m i

theorem getD_append_left {α : Type} (l m : List α) (d : α) :
    ∀ i, i < l.length → (l ++ m).getD i d = l.getD i d := by
  induction l with
  | nil => intro i h; simp at h
  | cons a rest ih =>
    intro i h
    cases i with
    | zero => rfl
    | succ j =>
      have hj : j < rest.length := by simp only [List.length_cons] at h; omega
      exact ih j hj

theorem headD_eq_getD_zero {α : Type} (l : List α) (d : α) : l.headD d = l.getD 0 d := by
  cases l <;> rfl

theorem getLastD_eq_getD {α : Type} (l : List α) :
    ∀ d, l ≠ [] → l.getLastD d = l.getD (l.length - 1) d := by
  induction l with
  | nil => intro d h; exact absurd rfl h
  | cons a rest ih =>
    intro d _
    cases rest with
    | nil => rfl
    | cons b r2 =>
      have step : (a :: b :: r2).getLastD d = (b :: r2).getLastD d := by
        simp [List.getLastD_eq_getLast?, List.getLast?_cons_cons]
      rw [step, ih d (List.cons_ne_nil b r2)]
      have hlen : (a :: b :: r2).length - 1 = ((b :: r2).length - 1) + 1 := by
        simp [List.length_cons]
      rw [hlen]
      rfl

theorem sorted_getD_lt (l : List ℚ) (hl : l.Pairwise (fun a b => a < b))
    (i j : Nat) (hij : i < j) (hj : j < l.length) : l.getD i 0 < l.getD j 0 := by
  have hi : i < l.length := by omega
  rw [getD_eq_getElem l 0 i hi, getD_eq_getElem l 0 j hj]
  exact List.pairwise_iff_getElem.mp hl i j hi hj hij

theorem sorted_getD_le (l : List ℚ) (hl : l.Pairwise (fun a b => a < b))
    (i j : Nat) (hij : i ≤ j) (hj : j < l.length) : l.getD i 0 ≤ l.getD j 0 := by
  rcases Nat.lt_or_ge i j with h | h
  · exact le_of_lt (sorted_getD_lt l hl i j h hj)
  · have : i = j := by omega
    rw [this]

theorem filter_le_eq_nil (l : List ℚ) (t : ℚ) (h : ∀ x ∈ l, t < x) :
    l.filter (fun u => decide (u ≤ t)) = [] := by
  induction l with
  | nil => rfl
  | cons a rest ih =>
    have ha : (fun u => decide (u ≤ t)) a = false := by
      simp only [decide_eq_false_iff_not, not_le]
      exact h a (List.mem_cons_self a rest)
    rw [List.filter_cons, if_neg (by simp [ha])]
    exact ih (fun x hx => h x (List.mem_cons_of_mem a hx))

theorem filter_le_eq_self (l : List ℚ) (t : ℚ) (h : ∀ x ∈ l, x ≤ t) :
    l.filter (fun u => decide (u ≤ t)) = l := by
  induction l with
  | nil => rfl
  | cons a rest ih =>
    have ha : (fun u => decide (u ≤ t)) a = true := by
      simp only [decide_eq_true_eq]
      exact h a (List.mem_cons_self a rest)
    rw [List.filter_cons, if_pos (by simp [ha])]
    rw [ih (fun x hx => h x (List.mem_cons_of_mem a hx))]

theorem filter_le_length_eq (l : List ℚ) (hl : l.Pairwise (fun a b => a < b)) (t : ℚ) :
    ∀ i, i + 1 < l.length → l.getD i 0 ≤ t → t < l.getD (i + 1) 0 →
      (l.filter (fun u => decide (u ≤ t))).length = i + 1 := by
  induction l with
  | nil => intro i hi; simp at hi
  | cons a rest ih =>
    intro i hi h1 h2
    have hpair : ∀ b ∈ rest, a < b := fun b hb => List.rel_of_pairwise_cons hl hb
    have htail : rest.Pairwise (fun a b => a < b) := hl.of_cons
    cases i with
    | zero =>
      have ha : a ≤ t := h1
      have hrestnil : rest.filter (fun u => decide (u ≤ t)) = [] := by
        apply filter_le_eq_nil
        intro x hx
        obtain ⟨k, hk, hkx⟩ := mem_exists_getD rest x hx 0
        have h0k : rest.getD 0 0 ≤ rest.getD k 0 := sorted_getD_le rest htail 0 k (by omega) hk
        have h20 : t < rest.getD 0 0 := h2
        rw [← hkx]
        exact lt_of_lt_of_le h20 h0k
      rw [List.filter_cons, if_pos (by simp [ha])]
      simp [hrestnil]
    | succ j =>
      have hj1 : j + 1 < rest.length := by simp only [List.length_cons] at hi; omega
      have hj : j < rest.length := by omega
      have hmem : rest.getD j 0 ∈ rest := getD_mem rest j hj 0
      have haj : a < rest.getD j 0 := hpair _ hmem
      have ha : a ≤ t := le_of_lt (lt_of_lt_of_le haj h1)
      rw [List.filter_cons, if_pos (by simp [ha])]
      simp only [List.length_cons]
      rw [ih htail j hj1 h1 h2]

end Spline

namespace Spline

theorem times_ne_nil (f : PiecewisePolynomial) (hinv : f.inv) : f.times ≠ [] := by
  intro h
  have h1 := hinv.1
  rw [h] at h1
  simp at h1

theorem startTime_eq_getD (f : PiecewisePolynomial) : f.startTime = f.times.getD 0 0 :=
  headD_eq_getD_zero f.times 0

theorem endTime_eq_getD (f : PiecewisePolynomial) (hinv : f.inv) :
    f.endTime = f.times.getD (f.times.length - 1) 0 :=
  getLastD_eq_getD f.times 0 (times_ne_nil f hinv)

theorem startTime_lt_endTime (f : PiecewisePolynomial) (hinv : f.inv)
    (hne : f.segments ≠ []) : f.startTime < f.endTime := by
  rw [startTime_eq_getD, endTime_eq_getD f hinv]
  have h1 := hinv.1
  have hn : f.segments.length ≠ 0 := fun h0 => hne (List.length_eq_zero.mp h0)
  exact sorted_getD_lt f.times hinv.2.2 0 (f.times.length - 1) (by omega) (by omega)

theorem mem_le_endTime (f : PiecewisePolynomial) (hinv : f.inv) (x : ℚ)
    (hx : x ∈ f.times) : x ≤ f.endTime := by
  obtain ⟨k, hk, hkx⟩ := mem_exists_getD f.times x hx 0
  rw [endTime_eq_getD f hinv, ← hkx]
  exact sorted_getD_le f.times hinv.2.2 k (f.times.length - 1) (by omega) (by omega)

theorem startTime_le_mem (f : PiecewisePolynomial) (hinv : f.inv) (x : ℚ)
    (hx : x ∈ f.times) : f.startTime ≤ x := by
  obtain ⟨k, hk, hkx⟩ := mem_exists_getD f.times x hx 0
  rw [startTime_eq_getD, ← hkx]
  exact sorted_getD_le f.times hinv.2.2 0 k (by omega) hk

theorem findSegment_eq_of_between (f : PiecewisePolynomial) (hinv : f.inv) (t : ℚ)
    (i : Nat) (hi : i + 1 < f.times.length) (h1 : f.times.getD i 0 ≤ t)
    (h2 : t < f.times.getD (i + 1) 0) : f.findSegment t = i := by
  have hc := filter_le_length_eq f.times hinv.2.2 t i hi h1 h2
  have hlen := hinv.1
  unfold PiecewisePolynomial.findSegment
  simp only [hc, Nat.succ_ne_zero, if_false, Nat.add_sub_cancel]
  exact Nat.min_eq_left (by omega)

theorem findSegment_eq_zero_of_lt (f : PiecewisePolynomial) (hinv : f.inv) (t : ℚ)
    (h : t < f.startTime) : f.findSegment t = 0 := by
  have hnil : f.times.filter (fun u => decide (u ≤ t)) = [] := by
    apply filter_le_eq_nil
    intro x hx
    exact lt_of_lt_of_le h (startTime_le_mem f hinv x hx)
  unfold PiecewisePolynomial.findSegment
  simp [hnil]

theorem findSegment_eq_last_of_ge (f : PiecewisePolynomial) (hinv : f.inv)
    (hne : f.segments ≠ []) (t : ℚ) (h : f.endTime ≤ t) :
    f.findSegment t = f.segments.length - 1 := by
  have hself : f.times.filter (fun u => decide (u ≤ t)) = f.times := by
    apply filter_le_eq_self
    intro x hx
    exact le_trans (mem_le_endTime f hinv x hx) h
  have hlen := hinv.1
  have hn : f.segments.length ≠ 0 := fun h0 => hne (List.length_eq_zero.mp h0)
  unfold PiecewisePolynomial.findSegment
  simp only [hself]
  rw [if_neg (by omega : ¬ f.times.length = 0)]
  exact Nat.min_eq_right (by omega)

theorem findSegment_lt_length (f : PiecewisePolynomial) (hinv : f.inv)
    (hne : f.segments ≠ []) (t : ℚ) : f.findSegment t < f.segments.length := by
  have hn : f.segments.length ≠ 0 := fun h0 => hne (List.length_eq_zero.mp h0)
  unfold PiecewisePolynomial.findSegment
  simp only []
  split
  · omega
  · have hmin := Nat.min_le_right
      ((f.times.filter (fun u => decide (u ≤ t))).length - 1) (f.segments.length - 1)
    omega

theorem exists_between_sorted (l : List ℚ) (t : ℚ) :
    ∀ h2 : 2 ≤ l.length, l.getD 0 0 ≤ t → t < l.getD (l.length - 1) 0 →
      ∃ i, i + 1 < l.length ∧ l.getD i 0 ≤ t ∧ t < l.getD (i + 1) 0 := by
  induction l with
  | nil => intro h2; simp at h2
  | cons a rest ih =>
    intro h2 h0 h1
    cases rest with
    | nil => simp at h2
    | cons b r2 =>
      by_cases hb : t < b
      · exact ⟨0, by simp only [List.length_cons]; omega, h0, hb⟩
      · cases r2 with
        | nil => exact absurd h1 hb
        | cons c r3 =>
          have hble : b ≤ t := le_of_not_lt hb
          have h1r : t < (b :: c :: r3).getD ((b :: c :: r3).length - 1) 0 := by
            have hidx : (a :: b :: c :: r3).length - 1 = ((b :: c :: r3).length - 1) + 1 := by
              simp only [List.length_cons]
              omega
            rw [hidx] at h1
            exact h1
          obtain ⟨i, hi, hle, hlt⟩ := ih (by simp only [List.length_cons]; omega) hble h1r
          exact ⟨i + 1, by simp only [List.length_cons] at hi ⊢; omega, hle, hlt⟩

theorem findSegment_between (f : PiecewisePolynomial) (hinv : f.inv)
    (hne : f.segments ≠ []) (t : ℚ) (hge : f.startTime ≤ t) (hlt : t < f.endTime) :
    f.findSegment t + 1 < f.times.length ∧
      f.times.getD (f.findSegment t) 0 ≤ t ∧ t < f.times.getD (f.findSegment t + 1) 0 := by
  have hlen := hinv.1
  have hn : f.segments.length ≠ 0 := fun h0 => hne (List.length_eq_zero.mp h0)
  rw [startTime_eq_getD] at hge
  rw [endTime_eq_getD f hinv] at hlt
  obtain ⟨i, hi, h1, h2⟩ := exists_between_sorted f.times t (by omega) hge hlt
  rw [findSegment_eq_of_between f hinv t i hi h1 h2]
  exact ⟨hi, h1, h2⟩

end Spline

namespace Spline

/-- C1: for a non-empty trajectory satisfying the structural invariant and a
time t inside `[times[0], times[n]]`, `Evaluate(t)` is
`segments[i].evaluate(t - timeShift[i])` for the unique i with
`times[i] <= t < times[i+1]`, and for t equal to the final breakpoint the
last segment is used. -/
theorem spec_c1 (f : PiecewisePolynomial) (hinv : f.inv) (hne : f.segments ≠ [])
    (t : ℚ) :
    (∀ i, i + 1 < f.times.length → f.times.getD i 0 ≤ t → t < f.times.getD (i + 1) 0 →
      f.evaluate t = polyEval (f.segments.getD i []) (t - f.timeShift.getD i 0)) ∧
    (t = f.endTime →
      f.evaluate t = polyEval (f.segments.getD (f.segments.length - 1) [])
        (t - f.timeShift.getD (f.segments.length - 1) 0)) := by
  constructor
  · intro i hi h1 h2
    unfold PiecewisePolynomial.evaluate
    rw [findSegment_eq_of_between f hinv t i hi h1 h2]
  · intro ht
    unfold PiecewisePolynomial.evaluate
    rw [findSegment_eq_last_of_ge f hinv hne t (le_of_eq ht.symm)]

/-- C1 witness: the trajectory `Linear(0,10,0,5)` evaluated at the interior
time 2 through `spec_c1` at segment index 0. -/
theorem spec_c1_witness :
    ppLin.inv ∧ ppLin.segments ≠ [] ∧
      ppLin.evaluate 2 =
        polyEval (ppLin.segments.getD 0 []) (2 - ppLin.timeShift.getD 0 0) :=
  ⟨by decide, by decide,
    (spec_c1 ppLin (by decide) (by decide) 2).1 0 (by decide) (by decide) (by decide)⟩

/-- C3: for a non-empty trajectory, `FindSegment` always succeeds with an
index in `[0, n-1]`: below `times[0]` it is clamped to 0, at or above
`times[n]` it is clamped to n-1, and between `times[i]` and `times[i+1]` it
is the unique i, i.e. the greatest index whose breakpoint is at most t. -/
theorem spec_c3 (f : PiecewisePolynomial) (hinv : f.inv) (hne : f.segments ≠ [])
    (t : ℚ) :
    f.findSegment t < f.segments.length ∧
    (t < f.startTime → f.findSegment t = 0) ∧
    (f.endTime ≤ t → f.findSegment t = f.segments.length - 1) ∧
    (∀ i, i + 1 < f.times.length → f.times.getD i 0 ≤ t → t < f.times.getD (i + 1) 0 →
      f.findSegment t = i) :=
  ⟨findSegment_lt_length f hinv hne t,
   fun h => findSegment_eq_zero_of_lt f hinv t h,
   fun h => findSegment_eq_last_of_ge f hinv hne t h,
   fun i hi h1 h2 => findSegment_eq_of_between f hinv t i hi h1 h2⟩

/-- C3 witness: on the two-segment trajectory `ppTwo`, the segment index at
the far-out-of-range time 100 is still a valid index. -/
theorem spec_c3_witness :
    ppTwo.inv ∧ ppTwo.segments ≠ [] ∧ ppTwo.findSegment 100 < ppTwo.segments.length :=
  ⟨by decide, by decide, (spec_c3 ppTwo (by decide) (by decide) 100).1⟩

end Spline

namespace Spline

theorem zipWith_length {α β γ : Type} (g : α → β → γ) :
    ∀ l1 : List α, ∀ l2 : List β, (List.zipWith g l1 l2).length = min l1.length l2.length := by
  intro l1
  induction l1 with
  | nil => intro l2; simp
  | cons a rest ih =>
    intro l2
    cases l2 with
    | nil => simp
    | cons b r2 =>
      simp only [List.zipWith_cons_cons, List.length_cons, ih]
      omega

theorem polyDeriv_length (p : Poly) : (polyDeriv p).length = p.length - 1 := by
  cases p with
  | nil => rfl
  | cons a rest =>
    simp only [polyDeriv, zipWith_length, List.length_range, List.length_cons]
    omega

theorem polyDerivN_eq_nil_of_le : ∀ n : Nat, ∀ p : Poly, p.length ≤ n → polyDerivN n p = [] := by
  intro n
  induction n with
  | zero =>
    intro p hp
    have : p = [] := List.length_eq_zero.mp (by omega)
    rw [this]
    rfl
  | succ m ih =>
    intro p hp
    show polyDerivN m (polyDeriv p) = []
    apply ih
    rw [polyDeriv_length]
    omega

theorem findSegment_differentiate (f : PiecewisePolynomial) (n : Nat) (t : ℚ) :
    (f.differentiate n).findSegment t = f.findSegment t := by
  unfold PiecewisePolynomial.findSegment PiecewisePolynomial.differentiate
  simp [List.length_map]

/-- C4: `Derivative(t, n)` is the n-th derivative polynomial of segment
`FindSegment(t)` evaluated at the shifted (never rescaled) local time
`t - timeShift[i]`; it agrees with evaluating `Differentiate(n)`, and
differentiating a polynomial more often than its coefficient count yields
the zero polynomial. -/
theorem spec_c4 (f : PiecewisePolynomial) (hinv : f.inv) (hne : f.segments ≠ [])
    (t : ℚ) (n : Nat) :
    f.derivative t n =
      polyEval (polyDerivN n (f.segments.getD (f.findSegment t) []))
        (t - f.timeShift.getD (f.findSegment t) 0) ∧
    f.derivative t n = (f.differentiate n).evaluate t ∧
    (∀ p : Poly, p.length ≤ n → polyDerivN n p = []) := by
  refine ⟨rfl, ?_, fun p hp => polyDerivN_eq_nil_of_le n p hp⟩
  have hflt : f.findSegment t < f.segments.length := findSegment_lt_length f hinv hne t
  unfold PiecewisePolynomial.derivative PiecewisePolynomial.evaluate
  rw [findSegment_differentiate]
  show polyEval (polyDerivN n (f.segments.getD (f.findSegment t) []))
      (t - f.timeShift.getD (f.findSegment t) 0) =
    polyEval ((f.segments.map (polyDerivN n)).getD (f.findSegment t) [])
      (t - f.timeShift.getD (f.findSegment t) 0)
  rw [getD_map_eq (polyDerivN n) f.segments [] [] (f.findSegment t) hflt]

/-- C4 witness: the derivative of `Linear(0,10,0,5)` at time 2 through
`spec_c4`, with order 1. -/
theorem spec_c4_witness :
    ppLin.inv ∧ ppLin.segments ≠ [] ∧
      ppLin.derivative 2 1 = (ppLin.differentiate 1).evaluate 2 :=
  ⟨by decide, by decide, (spec_c4 ppLin (by decide) (by decide) 2 1).2.1⟩

theorem filter_map_add (l : List ℚ) (dt t : ℚ) :
    (l.map (fun u => u + dt)).filter (fun u => decide (u ≤ t + dt)) =
      (l.filter (fun u => decide (u ≤ t))).map (fun u => u + dt) := by
  induction l with
  | nil => rfl
  | cons a rest ih =>
    by_cases h : a ≤ t
    · have h2 : a + dt ≤ t + dt := by linarith
      simp [List.filter_cons, h, h2, ih]
    · have h2 : ¬ a + dt ≤ t + dt := fun hh => h (by linarith)
      simp [List.filter_cons, h, h2, ih]

theorem findSegment_timeShiftBy (f : PiecewisePolynomial) (dt t : ℚ) :
    (f.timeShiftBy dt).findSegment (t + dt) = f.findSegment t := by
  unfold PiecewisePolynomial.findSegment PiecewisePolynomial.timeShiftBy
  simp only [filter_map_add, List.length_map]

/-- C6: after `TimeShift(dt)` the curve is the exact time-translation of the
old one — evaluating at `t + dt` gives the old value at t — and both the
breakpoint and timeShift sequences are translated entrywise by dt. -/
theorem spec_c6 (f : PiecewisePolynomial) (hinv : f.inv) (hne : f.segments ≠ [])
    (dt t : ℚ) :
    (f.timeShiftBy dt).evaluate (t + dt) = f.evaluate t ∧
    (f.timeShiftBy dt).times = f.times.map (fun u => u + dt) ∧
    (f.timeShiftBy dt).timeShift = f.timeShift.map (fun c => c + dt) := by
  refine ⟨?_, rfl, rfl⟩
  have hflt : f.findSegment t < f.segments.length := findSegment_lt_length f hinv hne t
  have hsh : f.findSegment t < f.timeShift.length := by
    rw [hinv.2.1]
    exact hflt
  unfold PiecewisePolynomial.evaluate
  rw [findSegment_timeShiftBy]
  show polyEval ((f.timeShiftBy dt).segments.getD (f.findSegment t) [])
      (t + dt - (f.timeShift.map (fun c => c + dt)).getD (f.findSegment t) 0) =
    polyEval (f.segments.getD (f.findSegment t) [])
      (t - f.timeShift.getD (f.findSegment t) 0)
  rw [getD_map_eq (fun c => c + dt) f.timeShift 0 0 (f.findSegment t) hsh]
  have harg : t + dt - (f.timeShift.getD (f.findSegment t) 0 + dt) =
      t - f.timeShift.getD (f.findSegment t) 0 := by ring
  rw [harg]
  rfl

/-- C6 witness: shifting `ppTwo` by 3 and evaluating at `1 + 3` through
`spec_c6`. -/
theorem spec_c6_witness :
    ppTwo.inv ∧ ppTwo.segments ≠ [] ∧
      (ppTwo.timeShiftBy 3).evaluate (1 + 3) = ppTwo.evaluate 1 :=
  ⟨by decide, by decide, (spec_c6 ppTwo (by decide) (by decide) 3 1).1⟩

/-- C10: `Start`, `End`, `StartTime`, `EndTime` access the first/last
entries of the three sequences unguarded; given at least one segment and
the structural invariant, every such access is in range, so the `Option`
renderings are all defined. -/
theorem spec_c10 (f : PiecewisePolynomial) (hinv : f.inv) (hne : f.segments ≠ []) :
    f.startOpt.isSome ∧ f.endOpt.isSome ∧ f.startTimeOpt.isSome ∧ f.endTimeOpt.isSome := by
  have htne : f.times ≠ [] := times_ne_nil f hinv
  have hshne : f.timeShift ≠ [] := by
    intro h
    have h1 := hinv.2.1
    rw [h] at h1
    have : f.segments.length = 0 := by simpa using h1.symm
    exact hne (List.length_eq_zero.mp this)
  obtain ⟨s, segs, hs⟩ := List.exists_cons_of_ne_nil hne
  obtain ⟨t0, ts, ht⟩ := List.exists_cons_of_ne_nil htne
  obtain ⟨c0, cs, hc⟩ := List.exists_cons_of_ne_nil hshne
  refine ⟨?_, ?_, ?_, ?_⟩
  · unfold PiecewisePolynomial.startOpt
    rw [hs, ht, hc]
    rfl
  · unfold PiecewisePolynomial.endOpt
    have h1 : f.segments.getLast?.isSome := List.getLast?_isSome.mpr hne
    have h2 : f.times.getLast?.isSome := List.getLast?_isSome.mpr htne
    have h3 : f.timeShift.getLast?.isSome := List.getLast?_isSome.mpr hshne
    obtain ⟨x1, hx1⟩ := Option.isSome_iff_exists.mp h1
    obtain ⟨x2, hx2⟩ := Option.isSome_iff_exists.mp h2
    obtain ⟨x3, hx3⟩ := Option.isSome_iff_exists.mp h3
    rw [hx1, hx2, hx3]
    rfl
  · unfold PiecewisePolynomial.startTimeOpt
    rw [ht]
    rfl
  · unfold PiecewisePolynomial.endTimeOpt
    exact List.getLast?_isSome.mpr htne

/-- C10 witness: all four accessors are defined on the one-segment `ppLin`. -/
theorem spec_c10_witness :
    ppLin.inv ∧ ppLin.segments ≠ [] ∧
      (ppLin.startOpt.isSome ∧ ppLin.endOpt.isSome ∧
        ppLin.startTimeOpt.isSome ∧ ppLin.endTimeOpt.isSome) :=
  ⟨by decide, by decide, spec_c10 ppLin (by decide) (by decide)⟩

end Spline

namespace Spline

theorem inv_mapSegments (f : PiecewisePolynomial) (hinv : f.inv) (g : Poly → Poly) :
    (PiecewisePolynomial.mk (f.segments.map g) f.timeShift f.times).inv := by
  obtain ⟨h1, h2, h3⟩ := hinv
  exact ⟨by simpa using h1, by simpa using h2, h3⟩

theorem inv_timeShiftBy (f : PiecewisePolynomial) (hinv : f.inv) (dt : ℚ) :
    (f.timeShiftBy dt).inv := by
  obtain ⟨h1, h2, h3⟩ := hinv
  refine ⟨by simpa [PiecewisePolynomial.timeShiftBy] using h1,
    by simpa [PiecewisePolynomial.timeShiftBy] using h2, ?_⟩
  show (f.times.map (fun u => u + dt)).Pairwise (fun a b => a < b)
  rw [List.pairwise_map]
  exact h3.imp fun h => by linarith

theorem inv_zeroTimeShift (f : PiecewisePolynomial) (hinv : f.inv) :
    f.zeroTimeShift.inv := by
  obtain ⟨h1, h2, h3⟩ := hinv
  refine ⟨?_, ?_, h3⟩
  · show f.times.length =
      (List.zipWith (fun p c => polyShiftArg c p) f.segments f.timeShift).length + 1
    rw [zipWith_length]
    omega
  · show (f.timeShift.map (fun _ => (0 : ℚ))).length =
      (List.zipWith (fun p c => polyShiftArg c p) f.segments f.timeShift).length
    rw [zipWith_length, List.length_map]
    omega

theorem inv_append (f : PiecewisePolynomial) (hinv : f.inv) (p : Poly) (t : ℚ)
    (rel : Bool) (g : PiecewisePolynomial) (h : f.append p t rel = .ok g) : g.inv := by
  obtain ⟨h1, h2, h3⟩ := hinv
  unfold PiecewisePolynomial.append at h
  split at h
  · simp at h
  · simp only [] at h
    generalize hN : (if rel then f.endTime + t else t) = tNew at h
    split at h
    · simp at h
    · rename_i hgt
      simp only [Except.ok.injEq] at h
      subst h
      refine ⟨?_, ?_, ?_⟩
      · show (f.times ++ [tNew]).length = (f.segments ++ [p]).length + 1
        simp only [List.length_append, List.length_singleton]
        omega
      · show (f.timeShift ++ [f.endTime]).length = (f.segments ++ [p]).length
        simp only [List.length_append, List.length_singleton]
        omega
      · show (f.times ++ [tNew]).Pairwise (fun a b => a < b)
        rw [List.pairwise_append]
        refine ⟨h3, List.pairwise_singleton _ _, ?_⟩
        intro x hx y hy
        have hxend : x ≤ f.endTime := mem_le_endTime f ⟨h1, h2, h3⟩ x hx
        have hyv : y = tNew := List.mem_singleton.mp hy
        have hlt : f.endTime < tNew := not_le.mp hgt
        rw [hyv]
        exact lt_of_le_of_lt hxend hlt

theorem inv_ofSegment (p : Poly) (a b : ℚ) (g : PiecewisePolynomial)
    (h : ofSegment p a b = .ok g) : g.inv := by
  unfold ofSegment at h
  split at h
  · rename_i hab
    simp only [Except.ok.injEq] at h
    subst h
    exact ⟨rfl, rfl, by simp [List.pairwise_cons, hab]⟩
  · simp at h

theorem inv_ofSegments (segs : List Poly) (ts shifts : List ℚ) (g : PiecewisePolynomial)
    (h : ofSegments segs ts shifts = .ok g) : g.inv := by
  unfold ofSegments at h
  split at h
  · rename_i hcond
    simp only [Except.ok.injEq] at h
    subst h
    exact ⟨hcond.1, hcond.2.1, hcond.2.2⟩
  · simp at h

theorem prefixSums_length (durs : List ℚ) :
    ∀ a, (prefixSums a durs).length = durs.length + 1 := by
  induction durs with
  | nil => intro a; rfl
  | cons d rest ih =>
    intro a
    show (a :: prefixSums (a + d) rest).length = rest.length + 1 + 1
    simp [ih]

theorem prefixSums_lb (durs : List ℚ) (hd : ∀ d ∈ durs, 0 < d) :
    ∀ a, ∀ x ∈ prefixSums a durs, a ≤ x := by
  induction durs with
  | nil =>
    intro a x hx
    have : x = a := by simpa [prefixSums] using hx
    rw [this]
  | cons d rest ih =>
    intro a x hx
    have hdp : 0 < d := hd d (List.mem_cons_self d rest)
    have hrest : ∀ e ∈ rest, 0 < e := fun e he => hd e (List.mem_cons_of_mem d he)
    rcases (by simpa [prefixSums] using hx : x = a ∨ x ∈ prefixSums (a + d) rest) with
      h | h
    · rw [h]
    · have := (ih hrest) (a + d) x h
      linarith

theorem prefixSums_pairwise (durs : List ℚ) (hd : ∀ d ∈ durs, 0 < d) :
    ∀ a, (prefixSums a durs).Pairwise (fun x y => x < y) := by
  induction durs with
  | nil => intro a; exact List.pairwise_singleton _ _
  | cons d rest ih =>
    intro a
    have hdp : 0 < d := hd d (List.mem_cons_self d rest)
    have hrest : ∀ e ∈ rest, 0 < e := fun e he => hd e (List.mem_cons_of_mem d he)
    show (a :: prefixSums (a + d) rest).Pairwise (fun x y => x < y)
    rw [List.pairwise_cons]
    refine ⟨?_, ih hrest (a + d)⟩
    intro x hx
    have := prefixSums_lb rest hrest (a + d) x hx
    linarith

theorem inv_ofSegmentsRelative (segs : List Poly) (durs : List ℚ)
    (g : PiecewisePolynomial) (h : ofSegmentsRelative segs durs = .ok g) : g.inv := by
  unfold ofSegmentsRelative at h
  split at h
  · rename_i hcond
    simp only [Except.ok.injEq] at h
    subst h
    have hlen : durs.length = segs.length := hcond.1
    have hpos : ∀ d ∈ durs, 0 < d := by
      intro d hd
      have := List.all_eq_true.mp hcond.2 d hd
      simpa using this
    refine ⟨?_, ?_, prefixSums_pairwise durs hpos 0⟩
    · show (prefixSums 0 durs).length = segs.length + 1
      rw [prefixSums_length]
      omega
    · show (List.take segs.length (prefixSums 0 durs)).length = segs.length
      rw [List.length_take, prefixSums_length]
      omega
  · simp at h

end Spline

namespace Spline

theorem inv_glue (f g2 : PiecewisePolynomial) (hf : f.inv) (hg2 : g2.inv)
    (hstart : g2.startTime = f.endTime) :
    (PiecewisePolynomial.mk (f.segments ++ g2.segments) (f.timeShift ++ g2.timeShift)
      (f.times ++ g2.times.tail)).inv := by
  obtain ⟨hf1, hf2, hf3⟩ := hf
  obtain ⟨hg1, hg2a, hg3⟩ := hg2
  refine ⟨?_, ?_, ?_⟩
  · show (f.times ++ g2.times.tail).length = (f.segments ++ g2.segments).length + 1
    simp only [List.length_append, List.length_tail]
    omega
  · show (f.timeShift ++ g2.timeShift).length = (f.segments ++ g2.segments).length
    simp only [List.length_append]
    omega
  · show (f.times ++ g2.times.tail).Pairwise (fun a b => a < b)
    rw [List.pairwise_append]
    refine ⟨hf3, hg3.tail, ?_⟩
    intro x hx y hy
    have hx2 : x ≤ f.endTime := mem_le_endTime f ⟨hf1, hf2, hf3⟩ x hx
    rw [← List.drop_one] at hy
    obtain ⟨k, hk, hky⟩ := mem_exists_getD _ y hy 0
    rw [List.length_drop] at hk
    rw [getD_drop_eq] at hky
    have hlt : g2.times.getD 0 0 < g2.times.getD (1 + k) 0 :=
      sorted_getD_lt g2.times hg3 0 (1 + k) (by omega) (by omega)
    rw [← hky]
    calc x ≤ f.endTime := hx2
      _ = g2.times.getD 0 0 := by rw [← hstart, startTime_eq_getD g2]
      _ < g2.times.getD (1 + k) 0 := hlt

theorem inv_concat (f g : PiecewisePolynomial) (hf : f.inv) (hg : g.inv) (rel : Bool)
    (res : PiecewisePolynomial) (h : f.concat g rel = .ok res) : res.inv := by
  have hg2 : (if rel then g.timeShiftBy f.endTime else g).inv := by
    split
    · exact inv_timeShiftBy g hg f.endTime
    · exact hg
  unfold PiecewisePolynomial.concat at h
  simp only [] at h
  generalize hG : (if rel then g.timeShiftBy f.endTime else g) = g2 at h hg2
  split at h
  · simp only [Except.ok.injEq] at h
    subst h
    exact hf
  · split at h
    · simp only [Except.ok.injEq] at h
      subst h
      exact hg2
    · split at h
      · rename_i hcond
        simp only [Except.ok.injEq] at h
        subst h
        exact inv_glue f g2 hf hg2 hcond
      · simp at h

theorem inv_split (f : PiecewisePolynomial) (hinv : f.inv) (t : ℚ)
    (fr bk : PiecewisePolynomial) (h : f.split t = .ok (fr, bk)) : fr.inv ∧ bk.inv := by
  have hinv2 : f.inv := hinv
  obtain ⟨h1, h2, h3⟩ := hinv
  unfold PiecewisePolynomial.split at h
  split at h
  · simp at h
  · rename_i hemp
    have hsne : f.segments ≠ [] := fun hh => hemp (by rw [hh]; rfl)
    split at h
    · simp at h
    · rename_i hrange
      push_neg at hrange
      obtain ⟨hge, hle⟩ := hrange
      simp only [] at h
      have hilt : f.findSegment t < f.segments.length := findSegment_lt_length f hinv2 hsne t
      split at h
      · rename_i heq
        simp only [Except.ok.injEq, Prod.mk.injEq] at h
        obtain ⟨hfr, hbk⟩ := h
        subst hfr
        subst hbk
        constructor
        · refine ⟨?_, ?_, h3.sublist (List.take_sublist _ _)⟩
          · show (f.times.take (f.findSegment t + 1)).length =
              (f.segments.take (f.findSegment t)).length + 1
            simp only [List.length_take]
            omega
          · show (f.timeShift.take (f.findSegment t)).length =
              (f.segments.take (f.findSegment t)).length
            simp only [List.length_take]
            omega
        · refine ⟨?_, ?_, h3.sublist (List.drop_sublist _ _)⟩
          · show (f.times.drop (f.findSegment t)).length =
              (f.segments.drop (f.findSegment t)).length + 1
            simp only [List.length_drop]
            omega
          · show (f.timeShift.drop (f.findSegment t)).length =
              (f.segments.drop (f.findSegment t)).length
            simp only [List.length_drop]
            omega
      · split at h
        · simp only [Except.ok.injEq, Prod.mk.injEq] at h
          obtain ⟨hfr, hbk⟩ := h
          subst hfr
          subst hbk
          exact ⟨hinv2, ⟨rfl, rfl, List.pairwise_singleton _ _⟩⟩
        · rename_i hneq hnend
          simp only [Except.ok.injEq, Prod.mk.injEq] at h
          obtain ⟨hfr, hbk⟩ := h
          subst hfr
          subst hbk
          have htlt : t < f.endTime := lt_of_le_of_ne hle hnend
          obtain ⟨hib, hi1, hi2⟩ := findSegment_between f hinv2 hsne t hge htlt
          have higetlt : f.times.getD (f.findSegment t) 0 < t :=
            lt_of_le_of_ne hi1 (fun hh => hneq hh.symm)
          constructor
          · refine ⟨?_, ?_, ?_⟩
            · show (f.times.take (f.findSegment t + 1) ++ [t]).length =
                (f.segments.take (f.findSegment t + 1)).length + 1
              simp only [List.length_append, List.length_take, List.length_singleton]
              omega
            · show (f.timeShift.take (f.findSegment t + 1)).length =
                (f.segments.take (f.findSegment t + 1)).length
              simp only [List.length_take]
              omega
            · show (f.times.take (f.findSegment t + 1) ++ [t]).Pairwise (fun a b => a < b)
              rw [List.pairwise_append]
              refine ⟨h3.sublist (List.take_sublist _ _), List.pairwise_singleton _ _, ?_⟩
              intro x hx y hy
              rw [List.mem_singleton.mp hy]
              obtain ⟨k, hk, hkx⟩ := mem_exists_getD _ x hx 0
              rw [List.length_take] at hk
              rw [getD_take_eq f.times 0 (f.findSegment t + 1) k (by omega)] at hkx
              have hkle : f.times.getD k 0 ≤ f.times.getD (f.findSegment t) 0 :=
                sorted_getD_le f.times h3 k (f.findSegment t) (by omega) (by omega)
              rw [← hkx]
              exact lt_of_le_of_lt hkle higetlt
          · refine ⟨?_, ?_, ?_⟩
            · show (t :: f.times.drop (f.findSegment t + 1)).length =
                (f.segments.drop (f.findSegment t)).length + 1
              simp only [List.length_cons, List.length_drop]
              omega
            · show (f.timeShift.drop (f.findSegment t)).length =
                (f.segments.drop (f.findSegment t)).length
              simp only [List.length_drop]
              omega
            · show (t :: f.times.drop (f.findSegment t + 1)).Pairwise (fun a b => a < b)
              rw [List.pairwise_cons]
              refine ⟨?_, h3.sublist (List.drop_sublist _ _)⟩
              intro y hy
              obtain ⟨k, hk, hky⟩ := mem_exists_getD _ y hy 0
              rw [List.length_drop] at hk
              rw [getD_drop_eq] at hky
              have hmono : f.times.getD (f.findSegment t + 1) 0 ≤
                  f.times.getD (f.findSegment t + 1 + k) 0 :=
                sorted_getD_le f.times h3 (f.findSegment t + 1) (f.findSegment t + 1 + k)
                  (by omega) (by omega)
              rw [← hky]
              exact lt_of_lt_of_le hi2 hmono

end Spline

namespace Spline

theorem inv_trimFront (f : PiecewisePolynomial) (hinv : f.inv) (tstart : ℚ)
    (g : PiecewisePolynomial) (h : f.trimFront tstart = .ok g) : g.inv := by
  have hinv2 : f.inv := hinv
  obtain ⟨h1, h2, h3⟩ := hinv
  unfold PiecewisePolynomial.trimFront at h
  split at h
  · simp at h
  · rename_i hemp
    have hsne : f.segments ≠ [] := fun hh => hemp (by rw [hh]; rfl)
    split at h
    · simp at h
    · rename_i hend
      have hlt2 : tstart < f.endTime := not_le.mp hend
      simp only [] at h
      simp only [Except.ok.injEq] at h
      subst h
      have hilt : f.findSegment tstart < f.segments.length :=
        findSegment_lt_length f hinv2 hsne tstart
      refine ⟨?_, ?_, ?_⟩
      · show (tstart :: f.times.drop (f.findSegment tstart + 1)).length =
          (f.segments.drop (f.findSegment tstart)).length + 1
        simp only [List.length_cons, List.length_drop]
        omega
      · show (f.timeShift.drop (f.findSegment tstart)).length =
          (f.segments.drop (f.findSegment tstart)).length
        simp only [List.length_drop]
        omega
      · show (tstart :: f.times.drop (f.findSegment tstart + 1)).Pairwise (fun a b => a < b)
        rw [List.pairwise_cons]
        refine ⟨?_, h3.sublist (List.drop_sublist _ _)⟩
        intro y hy
        obtain ⟨k, hk, hky⟩ := mem_exists_getD _ y hy 0
        rw [List.length_drop] at hk
        rw [getD_drop_eq] at hky
        rw [← hky]
        have hnext : tstart < f.times.getD (f.findSegment tstart + 1) 0 := by
          by_cases hs : tstart < f.startTime
          · have hi0 : f.findSegment tstart = 0 := findSegment_eq_zero_of_lt f hinv2 tstart hs
            rw [hi0]
            have : f.times.getD 0 0 < f.times.getD 1 0 :=
              sorted_getD_lt f.times h3 0 1 (by omega) (by omega)
            rw [startTime_eq_getD] at hs
            linarith
          · obtain ⟨hib, hj1, hj2⟩ :=
              findSegment_between f hinv2 hsne tstart (not_lt.mp hs) hlt2
            exact hj2
        have hmono : f.times.getD (f.findSegment tstart + 1) 0 ≤
            f.times.getD (f.findSegment tstart + 1 + k) 0 :=
          sorted_getD_le f.times h3 _ _ (by omega) (by omega)
        exact lt_of_lt_of_le hnext hmono

theorem inv_trimBack (f : PiecewisePolynomial) (hinv : f.inv) (tend : ℚ)
    (g : PiecewisePolynomial) (h : f.trimBack tend = .ok g) : g.inv := by
  have hinv2 : f.inv := hinv
  obtain ⟨h1, h2, h3⟩ := hinv
  unfold PiecewisePolynomial.trimBack at h
  split at h
  · simp at h
  · rename_i hemp
    have hsne : f.segments ≠ [] := fun hh => hemp (by rw [hh]; rfl)
    split at h
    · simp at h
    · rename_i hstart
      have hgt2 : f.startTime < tend := not_le.mp hstart
      simp only [] at h
      have hilt : f.findSegment tend < f.segments.length :=
        findSegment_lt_length f hinv2 hsne tend
      split at h
      · simp only [Except.ok.injEq] at h
        subst h
        refine ⟨?_, ?_, h3.sublist (List.take_sublist _ _)⟩
        · show (f.times.take (f.findSegment tend + 1)).length =
            (f.segments.take (f.findSegment tend)).length + 1
          simp only [List.length_take]
          omega
        · show (f.timeShift.take (f.findSegment tend)).length =
            (f.segments.take (f.findSegment tend)).length
          simp only [List.length_take]
          omega
      · rename_i hneq
        simp only [Except.ok.injEq] at h
        subst h
        have hgetlt : f.times.getD (f.findSegment tend) 0 < tend := by
          by_cases hcase : f.endTime ≤ tend
          · have hieq : f.findSegment tend = f.segments.length - 1 :=
              findSegment_eq_last_of_ge f hinv2 hsne tend hcase
            have : f.times.getD (f.segments.length - 1) 0 <
                f.times.getD (f.times.length - 1) 0 :=
              sorted_getD_lt f.times h3 _ _ (by omega) (by omega)
            rw [hieq]
            rw [endTime_eq_getD f hinv2] at hcase
            linarith
          · obtain ⟨hib, hj1, hj2⟩ := findSegment_between f hinv2 hsne tend
              (le_of_lt hgt2) (not_le.mp hcase)
            exact lt_of_le_of_ne hj1 (fun hh => hneq hh.symm)
        refine ⟨?_, ?_, ?_⟩
        · show (f.times.take (f.findSegment tend + 1) ++ [tend]).length =
            (f.segments.take (f.findSegment tend + 1)).length + 1
          simp only [List.length_append, List.length_take, List.length_singleton]
          omega
        · show (f.timeShift.take (f.findSegment tend + 1)).length =
            (f.segments.take (f.findSegment tend + 1)).length
          simp only [List.length_take]
          omega
        · show (f.times.take (f.findSegment tend + 1) ++ [tend]).Pairwise (fun a b => a < b)
          rw [List.pairwise_append]
          refine ⟨h3.sublist (List.take_sublist _ _), List.pairwise_singleton _ _, ?_⟩
          intro x hx y hy
          rw [List.mem_singleton.mp hy]
          obtain ⟨k, hk, hkx⟩ := mem_exists_getD _ x hx 0
          rw [List.length_take] at hk
          rw [getD_take_eq f.times 0 (f.findSegment tend + 1) k (by omega)] at hkx
          have hkle : f.times.getD k 0 ≤ f.times.getD (f.findSegment tend) 0 :=
            sorted_getD_le f.times h3 k (f.findSegment tend) (by omega) (by omega)
          rw [← hkx]
          exact lt_of_le_of_lt hkle hgetlt

theorem inv_select (f : PiecewisePolynomial) (hinv : f.inv) (a b : ℚ)
    (g : PiecewisePolynomial) (h : f.select a b = .ok g) : g.inv := by
  unfold PiecewisePolynomial.select at h
  cases heq : f.trimFront a with
  | error e => rw [heq] at h; simp at h
  | ok m =>
    rw [heq] at h
    exact inv_trimBack m (inv_trimFront f hinv a m heq) b g h

end Spline

namespace Spline

/-- C2: every valid construction establishes, and every mutating operation
preserves, the structural invariant: `len(segments) + 1 = len(times) =
len(timeShift) + 1` with strictly increasing breakpoints. -/
theorem spec_c2 (f g : PiecewisePolynomial) (hf : f.inv) (hg : g.inv) :
    (∀ p : Poly, ∀ a b : ℚ, ∀ r, ofSegment p a b = .ok r → r.inv) ∧
    (∀ segs : List Poly, ∀ ts shifts : List ℚ, ∀ r,
      ofSegments segs ts shifts = .ok r → r.inv) ∧
    (∀ segs : List Poly, ∀ durs : List ℚ, ∀ r,
      ofSegmentsRelative segs durs = .ok r → r.inv) ∧
    (∀ p : Poly, ∀ t : ℚ, ∀ rel : Bool, ∀ r, f.append p t rel = .ok r → r.inv) ∧
    (∀ rel : Bool, ∀ r, f.concat g rel = .ok r → r.inv) ∧
    (∀ t : ℚ, ∀ fr bk, f.split t = .ok (fr, bk) → fr.inv ∧ bk.inv) ∧
    (∀ t : ℚ, ∀ r, f.trimFront t = .ok r → r.inv) ∧
    (∀ t : ℚ, ∀ r, f.trimBack t = .ok r → r.inv) ∧
    (∀ a b : ℚ, ∀ r, f.select a b = .ok r → r.inv) ∧
    (∀ dt : ℚ, (f.timeShiftBy dt).inv) ∧
    f.zeroTimeShift.inv ∧
    (∀ n : Nat, (f.differentiate n).inv) ∧
    (∀ c : ℚ, (f.addScalar c).inv ∧ (f.subScalar c).inv ∧
      (f.mulScalar c).inv ∧ (f.divScalar c).inv) ∧
    (∀ q : Poly, (f.addPolyOp q).inv ∧ (f.subPolyOp q).inv ∧ (f.mulPolyOp q).inv) := by
  refine ⟨?_, ?_, ?_, ?_, ?_, ?_, ?_, ?_, ?_, ?_, ?_, ?_, ?_, ?_⟩
  · exact fun p a b r h => inv_ofSegment p a b r h
  · exact fun segs ts shifts r h => inv_ofSegments segs ts shifts r h
  · exact fun segs durs r h => inv_ofSegmentsRelative segs durs r h
  · exact fun p t rel r h => inv_append f hf p t rel r h
  · exact fun rel r h => inv_concat f g hf hg rel r h
  · exact fun t fr bk h => inv_split f hf t fr bk h
  · exact fun t r h => inv_trimFront f hf t r h
  · exact fun t r h => inv_trimBack f hf t r h
  · exact fun a b r h => inv_select f hf a b r h
  · exact fun dt => inv_timeShiftBy f hf dt
  · exact inv_zeroTimeShift f hf
  · exact fun n => inv_mapSegments f hf (polyDerivN n)
  · exact fun c => ⟨inv_mapSegments f hf (fun p => polyAdd p [c]),
      inv_mapSegments f hf (fun p => polySub p [c]),
      inv_mapSegments f hf (polyScale c),
      inv_mapSegments f hf (polyScale c⁻¹)⟩
  · exact fun q => ⟨inv_mapSegments f hf (fun p => polyAdd p q),
      inv_mapSegments f hf (fun p => polySub p q),
      inv_mapSegments f hf (fun p => polyMul p q)⟩

/-- C2 witness: the invariant is preserved on `ppTwo` by a time shift,
obtained through `spec_c2`. -/
theorem spec_c2_witness : ppTwo.inv ∧ ppLin.inv ∧ (ppTwo.timeShiftBy 5).inv :=
  ⟨by decide, by decide,
    (spec_c2 ppTwo ppLin (by decide) (by decide)).2.2.2.2.2.2.2.2.2.1 5⟩

end Spline

namespace Spline

theorem isEmpty_false_of_ne_nil {α : Type} (l : List α) (h : l ≠ []) :
    l.isEmpty = false := by
  cases l with
  | nil => exact absurd rfl h
  | cons a rest => rfl

theorem trimBack_ok_of (g : PiecewisePolynomial) (hgne : g.segments.isEmpty = false)
    (b : ℚ) (hgt : ¬ b ≤ g.startTime) : ∃ r, g.trimBack b = .ok r := by
  unfold PiecewisePolynomial.trimBack
  rw [if_neg (by simp [hgne]), if_neg hgt]
  simp only []
  split
  · exact ⟨_, rfl⟩
  · exact ⟨_, rfl⟩

/-- C7: under `a < b` and overlap with `[StartTime, EndTime]`, `Select(a,b)`
succeeds and produces exactly the trajectory obtained by `TrimFront(a)`
followed by `TrimBack(b)`; the original instance is untouched (automatic
under the embedding's value semantics). -/
theorem spec_c7 (f : PiecewisePolynomial) (hinv : f.inv) (hne : f.segments ≠ [])
    (a b : ℚ) (hab : a < b) (ha : a < f.endTime) (hb : f.startTime < b) :
    ∃ g r, f.trimFront a = .ok g ∧ g.trimBack b = .ok r ∧ f.select a b = .ok r := by
  have hemp : f.segments.isEmpty = false := isEmpty_false_of_ne_nil f.segments hne
  have htf : f.trimFront a = .ok ⟨f.segments.drop (f.findSegment a),
      f.timeShift.drop (f.findSegment a), a :: f.times.drop (f.findSegment a + 1)⟩ := by
    unfold PiecewisePolynomial.trimFront
    rw [if_neg (by simp [hemp]), if_neg (not_le.mpr ha)]
  have hilt : f.findSegment a < f.segments.length := findSegment_lt_length f hinv hne a
  have hgne : (f.segments.drop (f.findSegment a)).isEmpty = false := by
    apply isEmpty_false_of_ne_nil
    intro hh
    have := congrArg List.length hh
    simp only [List.length_drop, List.length_nil] at this
    omega
  obtain ⟨r, hr⟩ := trimBack_ok_of ⟨f.segments.drop (f.findSegment a),
      f.timeShift.drop (f.findSegment a), a :: f.times.drop (f.findSegment a + 1)⟩
      hgne b (not_le.mpr hab)
  refine ⟨_, r, htf, hr, ?_⟩
  unfold PiecewisePolynomial.select
  rw [htf]
  exact hr

/-- C7 witness: on the three-segment `ppThree`, `Select(1, 2)` succeeds and
equals `TrimFront(1)` followed by `TrimBack(2)`, via `spec_c7`. -/
theorem spec_c7_witness :
    ppThree.inv ∧ ppThree.segments ≠ [] ∧
      (∃ g r, ppThree.trimFront 1 = .ok g ∧ g.trimBack 2 = .ok r ∧
        ppThree.select 1 2 = .ok r) :=
  ⟨by decide, by decide,
    spec_c7 ppThree (by decide) (by decide) 1 2 (by decide) (by decide) (by decide)⟩

/-- C8: with at least one segment, `Split` fails exactly when t lies outside
`[StartTime, EndTime]`, the failure is always `OutOfRange`, and
`FindSegment` (hence Evaluate and Derivative, which index by it) never
fails: it returns a valid index for every t, extrapolating at the ends. -/
theorem spec_c8 (f : PiecewisePolynomial) (hinv : f.inv) (hne : f.segments ≠ [])
    (t : ℚ) :
    ((∃ e, f.split t = .error e) ↔ (t < f.startTime ∨ f.endTime < t)) ∧
    (∀ e, f.split t = .error e → e = TrajError.outOfRange) ∧
    f.findSegment t < f.segments.length := by
  have hemp : f.segments.isEmpty = false := isEmpty_false_of_ne_nil f.segments hne
  have herr : ∀ _ : t < f.startTime ∨ f.endTime < t,
      f.split t = .error TrajError.outOfRange := by
    intro h
    unfold PiecewisePolynomial.split
    rw [if_neg (by simp [hemp]), if_pos h]
  have hok : ∀ _ : ¬ (t < f.startTime ∨ f.endTime < t),
      ∃ pr, f.split t = .ok pr := by
    intro h
    unfold PiecewisePolynomial.split
    rw [if_neg (by simp [hemp]), if_neg h]
    simp only []
    split
    · exact ⟨_, rfl⟩
    · split
      · exact ⟨_, rfl⟩
      · exact ⟨_, rfl⟩
  refine ⟨⟨?_, fun h => ⟨_, herr h⟩⟩, ?_, findSegment_lt_length f hinv hne t⟩
  · rintro ⟨e, he⟩
    by_cases h : t < f.startTime ∨ f.endTime < t
    · exact h
    · obtain ⟨pr, hpr⟩ := hok h
      rw [hpr] at he
      simp at he
  · intro e he
    by_cases h : t < f.startTime ∨ f.endTime < t
    · have := herr h
      rw [this] at he
      simpa using he.symm
    · obtain ⟨pr, hpr⟩ := hok h
      rw [hpr] at he
      simp at he

/-- C8 witness: splitting `Linear(0,10,0,5)` at the out-of-range time 10
fails, via `spec_c8`. -/
theorem spec_c8_witness :
    ppLin.inv ∧ ppLin.segments ≠ [] ∧ (∃ e, ppLin.split 10 = .error e) :=
  ⟨by decide, by decide,
    (spec_c8 ppLin (by decide) (by decide) 10).1.mpr (Or.inr (by decide))⟩

end Spline

namespace Spline

theorem concat_of_right_empty (f g2 : PiecewisePolynomial) (hg : g2.segments = []) :
    f.concat g2 false = .ok f := by
  unfold PiecewisePolynomial.concat
  simp [hg]

theorem concat_of_left_empty (f g2 : PiecewisePolynomial) (hf : f.segments = [])
    (hg : g2.segments ≠ []) : f.concat g2 false = .ok g2 := by
  unfold PiecewisePolynomial.concat
  simp [hf, isEmpty_false_of_ne_nil _ hg]

theorem concat_eq_glue (f g2 : PiecewisePolynomial) (hf : f.segments ≠ [])
    (hg : g2.segments ≠ []) (hst : g2.startTime = f.endTime) :
    f.concat g2 false = .ok ⟨f.segments ++ g2.segments, f.timeShift ++ g2.timeShift,
      f.times ++ g2.times.tail⟩ := by
  unfold PiecewisePolynomial.concat
  simp [isEmpty_false_of_ne_nil _ hf, isEmpty_false_of_ne_nil _ hg, hst]

/-- C5 counterexample: on the single segment `x ↦ x` over `[0, 2]`,
splitting at the interior time 1 and concatenating the halves back
(relative = false) succeeds but duplicates the boundary segment and keeps
the extra breakpoint, so the original trajectory is not reproduced. -/
theorem spec_c5_counterexample :
    (splitConcat ppSeg 1).isSome = true ∧ splitConcat ppSeg 1 ≠ some ppSeg := by
  decide

/-- C5 (amended): splitting at a time t that is one of the existing
breakpoints and concatenating the two halves with relative = false
reproduces the original trajectory exactly (the spec's round-trip law holds
at breakpoints; at interior times the shared segment is duplicated). -/
theorem spec_c5 (f : PiecewisePolynomial) (hinv : f.inv) (hne : f.segments ≠ [])
    (t : ℚ) (ht : t ∈ f.times) : splitConcat f t = some f := by
  have hinv2 : f.inv := hinv
  obtain ⟨h1, h2, h3⟩ := hinv
  have hemp : f.segments.isEmpty = false := isEmpty_false_of_ne_nil f.segments hne
  have hn0 : f.segments.length ≠ 0 := fun hh => hne (List.length_eq_zero.mp hh)
  obtain ⟨k, hk, hkt⟩ := mem_exists_getD f.times t ht 0
  have hget : f.startTime ≤ t := startTime_le_mem f hinv2 t ht
  have hlet : t ≤ f.endTime := mem_le_endTime f hinv2 t ht
  have hrange : ¬ (t < f.startTime ∨ f.endTime < t) := by
    rintro (hh | hh) <;> linarith
  by_cases hkn : k + 1 < f.times.length
  · -- t is the breakpoint starting segment k
    have hfs : f.findSegment t = k := by
      apply findSegment_eq_of_between f hinv2 t k hkn (le_of_eq hkt)
      rw [← hkt]
      exact sorted_getD_lt f.times h3 k (k + 1) (by omega) hkn
    have hsplit : f.split t = .ok
        (⟨f.segments.take k, f.timeShift.take k, f.times.take (k + 1)⟩,
         ⟨f.segments.drop k, f.timeShift.drop k, f.times.drop k⟩) := by
      unfold PiecewisePolynomial.split
      rw [if_neg (by simp [hemp]), if_neg hrange]
      simp only []
      rw [hfs, if_pos hkt.symm]
    by_cases hk0 : k = 0
    · subst hk0
      have hconcat : (⟨f.segments.take 0, f.timeShift.take 0, f.times.take 1⟩ :
          PiecewisePolynomial).concat
          ⟨f.segments.drop 0, f.timeShift.drop 0, f.times.drop 0⟩ false =
          .ok ⟨f.segments.drop 0, f.timeShift.drop 0, f.times.drop 0⟩ := by
        apply concat_of_left_empty
        · rfl
        · simpa using hne
      unfold splitConcat
      rw [hsplit]
      simp only [hconcat]
      simp
    · have hkpos : 1 ≤ k := by omega
      have hfrne : f.segments.take k ≠ [] := by
        intro hh
        have := congrArg List.length hh
        simp only [List.length_take, List.length_nil] at this
        omega
      have hbkne : f.segments.drop k ≠ [] := by
        intro hh
        have := congrArg List.length hh
        simp only [List.length_drop, List.length_nil] at this
        omega
      have htake_ne : f.times.take (k + 1) ≠ [] := by
        intro hh
        have := congrArg List.length hh
        simp only [List.length_take, List.length_nil] at this
        omega
      have hst : (⟨f.segments.drop k, f.timeShift.drop k, f.times.drop k⟩ :
          PiecewisePolynomial).startTime =
          (⟨f.segments.take k, f.timeShift.take k, f.times.take (k + 1)⟩ :
          PiecewisePolynomial).endTime := by
        show (f.times.drop k).headD 0 = (f.times.take (k + 1)).getLastD 0
        rw [headD_eq_getD_zero, getD_drop_eq]
        rw [getLastD_eq_getD (f.times.take (k + 1)) 0 htake_ne]
        have hlen : (f.times.take (k + 1)).length = k + 1 := by
          rw [List.length_take]
          omega
        rw [hlen]
        simp only [Nat.add_sub_cancel, Nat.add_zero]
        rw [getD_take_eq f.times 0 (k + 1) k (by omega)]
      have hconcat := concat_eq_glue
        ⟨f.segments.take k, f.timeShift.take k, f.times.take (k + 1)⟩
        ⟨f.segments.drop k, f.timeShift.drop k, f.times.drop k⟩ hfrne hbkne hst
      unfold splitConcat
      rw [hsplit]
      simp only [hconcat]
      have hsegs : f.segments.take k ++ f.segments.drop k = f.segments :=
        List.take_append_drop k f.segments
      have hsh : f.timeShift.take k ++ f.timeShift.drop k = f.timeShift :=
        List.take_append_drop k f.timeShift
      have hts : f.times.take (k + 1) ++ (f.times.drop k).tail = f.times := by
        rw [List.tail_drop]
        exact List.take_append_drop (k + 1) f.times
      simp [hsegs, hsh, hts]
  · -- t is the final breakpoint
    have hkeq : k = f.times.length - 1 := by omega
    have htend : t = f.endTime := by
      rw [endTime_eq_getD f hinv2, ← hkeq]
      exact hkt.symm
    have hfs : f.findSegment t = f.segments.length - 1 :=
      findSegment_eq_last_of_ge f hinv2 hne t (le_of_eq htend.symm)
    have hneq : ¬ t = f.times.getD (f.segments.length - 1) 0 := by
      intro hh
      have hlt2 : f.times.getD (f.segments.length - 1) 0 <
          f.times.getD (f.times.length - 1) 0 :=
        sorted_getD_lt f.times h3 _ _ (by omega) (by omega)
      rw [← hh, ← hkeq, hkt] at hlt2
      exact lt_irrefl t hlt2
    have hsplit : f.split t = .ok (f, ⟨[], [], [t]⟩) := by
      unfold PiecewisePolynomial.split
      rw [if_neg (by simp [hemp]), if_neg hrange]
      simp only []
      rw [hfs, if_neg hneq, if_pos htend]
    have hconcat : f.concat ⟨[], [], [t]⟩ false = .ok f :=
      concat_of_right_empty f ⟨[], [], [t]⟩ rfl
    unfold splitConcat
    rw [hsplit]
    simp only [hconcat]

/-- C5 witness: on the two-segment trajectory `ppTwo`, splitting at the
internal breakpoint 1 and concatenating reproduces `ppTwo` exactly. -/
theorem spec_c5_witness :
    ppTwo.inv ∧ ppTwo.segments ≠ [] ∧ (1 : ℚ) ∈ ppTwo.times ∧
      splitConcat ppTwo 1 = some ppTwo :=
  ⟨by decide, by decide, by decide,
    spec_c5 ppTwo (by decide) (by decide) 1 (by decide)⟩

end Spline

namespace Spline

theorem bestDisc_spec (f : PiecewisePolynomial) (d : Nat) :
    ∀ k, ∃ i, 1 ≤ i ∧ i ≤ k + 1 ∧
      f.bestDisc d k = (f.times.getD i 0, f.discAt d i) ∧
      (∀ j, 1 ≤ j → j ≤ k + 1 → f.discAt d j ≤ f.discAt d i) ∧
      (∀ j, 1 ≤ j → j < i → f.discAt d j < f.discAt d i) := by
  intro k
  induction k with
  | zero =>
    refine ⟨1, le_refl 1, le_refl 1, rfl, ?_, ?_⟩
    · intro j hj1 hj2
      have hj : j = 1 := by omega
      rw [hj]
    · intro j hj1 hj2
      omega
  | succ m ih =>
    obtain ⟨i, hi1, hi2, heq, hmax, hfirst⟩ := ih
    have hsnd : (f.bestDisc d m).2 = f.discAt d i := by
      rw [heq]
    by_cases hlt : (f.bestDisc d m).2 < f.discAt d (m + 2)
    · refine ⟨m + 2, by omega, le_refl _, ?_, ?_, ?_⟩
      · show (if (f.bestDisc d m).2 < f.discAt d (m + 2) then
            (f.times.getD (m + 2) 0, f.discAt d (m + 2)) else f.bestDisc d m) =
          (f.times.getD (m + 2) 0, f.discAt d (m + 2))
        rw [if_pos hlt]
      · intro j hj1 hj2
        by_cases hj : j ≤ m + 1
        · have := hmax j hj1 hj
          rw [hsnd] at hlt
          linarith
        · have hj2' : j = m + 2 := by omega
          rw [hj2']
      · intro j hj1 hjlt
        by_cases hj : j ≤ m + 1
        · have := hmax j hj1 hj
          rw [hsnd] at hlt
          linarith
        · omega
    · refine ⟨i, hi1, by omega, ?_, ?_, hfirst⟩
      · show (if (f.bestDisc d m).2 < f.discAt d (m + 2) then
            (f.times.getD (m + 2) 0, f.discAt d (m + 2)) else f.bestDisc d m) =
          (f.times.getD i 0, f.discAt d i)
        rw [if_neg hlt]
        exact heq
      · intro j hj1 hj2
        by_cases hj : j ≤ m + 1
        · exact hmax j hj1 hj
        · have hj2' : j = m + 2 := by omega
          rw [hj2']
          rw [hsnd] at hlt
          exact not_lt.mp hlt

/-- C9: with at least two segments, `MaxDiscontinuity(d)` returns the pair
`(times[i], |right - left|)` of an internal breakpoint index i in
`[1, n-1]` whose one-sided derivative jump is maximal, and every earlier
internal breakpoint has a strictly smaller jump (ties broken by the lowest
index). -/
theorem spec_c9 (f : PiecewisePolynomial) (hn : 2 ≤ f.segments.length) (d : Nat) :
    ∃ i, 1 ≤ i ∧ i ≤ f.segments.length - 1 ∧
      f.maxDiscontinuity d = (f.times.getD i 0, f.discAt d i) ∧
      (∀ j, 1 ≤ j → j ≤ f.segments.length - 1 → f.discAt d j ≤ f.discAt d i) ∧
      (∀ j, 1 ≤ j → j < i → f.discAt d j < f.discAt d i) := by
  obtain ⟨i, hi1, hi2, heq, hmax, hfirst⟩ := bestDisc_spec f d (f.segments.length - 2)
  refine ⟨i, hi1, by omega, ?_, ?_, hfirst⟩
  · unfold PiecewisePolynomial.maxDiscontinuity
    rw [if_neg (by omega : ¬ f.segments.length < 2)]
    exact heq
  · intro j hj1 hj2
    exact hmax j hj1 (by omega)

/-- C9 witness: the jump of size 1 at breakpoint 1 between the constant-1
and constant-2 segments of `ppTwo`, via `spec_c9`. -/
theorem spec_c9_witness :
    2 ≤ ppTwo.segments.length ∧
      (∃ i, 1 ≤ i ∧ i ≤ ppTwo.segments.length - 1 ∧
        ppTwo.maxDiscontinuity 0 = (ppTwo.times.getD i 0, ppTwo.discAt 0 i) ∧
        (∀ j, 1 ≤ j → j ≤ ppTwo.segments.length - 1 →
          ppTwo.discAt 0 j ≤ ppTwo.discAt 0 i) ∧
        (∀ j, 1 ≤ j → j < i → ppTwo.discAt 0 j < ppTwo.discAt 0 i)) :=
  ⟨by decide, spec_c9 ppTwo (by decide) 0⟩

end Spline
